import Mathlib

/-!
Verification of the package-graph-driven IR program construction layer
(`Packages` and `BuildPackage` of the ssautil file, plus the IR `Program`
and `Package` data model they rely on), shallowly embedded in Lean.

Machine pointers used as memoization keys in the source become `Nat`
identities here; the possibly-cyclic package graph is a function from
identities to package records, and the recursive walk is given explicit
fuel measuring recursion depth, with a theorem showing sufficient fuel
always exists.
-/

/-- Identity of a loaded (type-checked) package; stands for the pointer
used as the memoization key in the source. -/
abbrev PkgId := Nat

/-- One loaded package as consumed by `Packages`: its position-table
reference (`Fset`, absent when nil), whether its type information is
absent (`Types == nil`), its `IllTyped` flag, opaque handles for its
syntax trees and type information, and its import edges. -/
structure GoPkg where
  fset : Option Nat
  typesNil : Bool
  illTyped : Bool
  syn : Nat
  tinfo : Nat
  imports : List PkgId
deriving DecidableEq, Repr

/-- A package graph: every identity resolves to a package record. -/
abbrev PkgGraph := PkgId → GoPkg

/-- Modelled from the spec: the IR Package wrapper (the `ssa.Package`
created by `Program.CreatePackage`, whose code is outside the excerpt).
It wraps one underlying type-checked package identity, the optional
syntax set and type-information record it was created with, the
importable flag, and a "bodies lowered" flag that only the external
body-lowering step (`Build`) sets. -/
structure SsaPackage where
  tpkg : PkgId
  syn : Option Nat
  tinfo : Option Nat
  importable : Bool
  lowered : Bool
deriving DecidableEq, Repr

/-- Modelled from the spec: the IR `Program` (the `ssa.Program` created
by `ssa.NewProgram`, whose code is outside the excerpt). It owns the
shared position table, the builder-mode flags, and the sequence of all
IR packages created so far, in creation order. -/
structure SsaProgram where
  fset : Option Nat
  mode : Nat
  packages : List SsaPackage
deriving DecidableEq, Repr

/-- Modelled from the spec: `ssa.NewProgram` — a fresh Program with the
given position table and flags and no packages. -/
def SsaProgram.new (fset : Option Nat) (mode : Nat) : SsaProgram :=
  ⟨fset, mode, []⟩

/-- Modelled from the spec: `Program.CreatePackage` — appends one freshly
created IR package (bodies not lowered) and returns its index, which
stands for the returned `*ssa.Package` pointer. -/
def SsaProgram.createPackage (prog : SsaProgram) (tpkg : PkgId) (syn : Option Nat)
    (tinfo : Option Nat) (importable : Bool) : SsaProgram × Nat :=
  ({ prog with packages := prog.packages ++ [⟨tpkg, syn, tinfo, importable, false⟩] },
   prog.packages.length)

/-- State threaded through the memoized walk of `Packages`: the Program
under construction and the `seen` cache. A cache value `none` is the
ill-typed sentinel (`seen[p] = nil`); an absent key means not visited. -/
structure WalkState where
  prog : SsaProgram
  seen : List (PkgId × Option Nat)
deriving DecidableEq, Repr

/-- First-match lookup in the `seen` cache: `none` means the key is
absent, `some v` that the cache holds `v` (possibly the sentinel). -/
def lookupSeen : List (PkgId × Option Nat) → PkgId → Option (Option Nat)
  | [], _ => none
  | (k, v) :: rest, p => if k = p then some v else lookupSeen rest p

/-- Runs an action over a list of packages left to right, threading the
walk state and discarding the per-package return values, as the loop
over `p.Imports` does in `create`. -/
def goList (f : WalkState → PkgId → Option (WalkState × Option Nat)) :
    WalkState → List PkgId → Option WalkState
  | st, [] => some st
  | st, p :: ps =>
    match f st p with
    | none => none
    | some (st', _) => goList f st' ps

/-- One step of the memoized `create` closure of `Packages`, with the
recursion over the imports abstracted as `recurse` (`none` when the
fuel is exhausted). Cache hits return the cached value with the state
untouched; an ill-typed package records the sentinel and does not
recurse; otherwise the new IR package is cached before the recursion
into imports. -/
def createStep (G : PkgGraph) (recurse : Option (WalkState → List PkgId → Option WalkState))
    (st : WalkState) (p : PkgId) : Option (WalkState × Option Nat) :=
  match lookupSeen st.seen p with
  | some v => some (st, v)
  | none =>
    if (G p).typesNil || (G p).illTyped then
      -- not well typed
      some (⟨st.prog, (p, none) :: st.seen⟩, none)
    else
      match recurse with
      | none => none
      | some go =>
        let pr := st.prog.createPackage p (some (G p).syn) (some (G p).tinfo) true
        match go ⟨pr.1, (p, some pr.2) :: st.seen⟩ (G p).imports with
        | none => none
        | some st'' => some (st'', some pr.2)

/-- The memoized recursive `create` closure of `Packages`. Fuel bounds
recursion depth; a `none` result means the fuel ran out, which never
matches the source's behaviour: sufficient fuel always exists
(`create_isSome_of_fuel`). -/
def create (G : PkgGraph) : Nat → WalkState → PkgId → Option (WalkState × Option Nat)
  | 0, st, p => createStep G none st p
  | fuel + 1, st, p => createStep G (some (goList (fun s q => create G fuel s q))) st p

/-- The recursion of `create` over an import list at one fuel level. -/
def createList (G : PkgGraph) (fuel : Nat) : WalkState → List PkgId → Option WalkState :=
  goList (fun s q => create G fuel s q)

/-- The result-accumulating loop of `Packages` over the initial
packages: `ssapkgs = append(ssapkgs, create(p))` in input order. -/
def packagesLoop (G : PkgGraph) (fuel : Nat) :
    WalkState → List PkgId → Option (WalkState × List (Option Nat))
  | st, [] => some (st, [])
  | st, p :: ps =>
    match create G fuel st p with
    | none => none
    | some (st', v) =>
      match packagesLoop G fuel st' ps with
      | none => none
      | some (st'', vs) => some (st'', v :: vs)

/-- The `var fset` computation of `Packages`: nil unless the input is
non-empty, in which case `initial[0].Fset`. -/
def initFset (G : PkgGraph) : List PkgId → Option Nat
  | [] => none
  | p :: _ => (G p).fset

/-- `Packages(initial, mode)`: position table from `initial[0]` when the
input is non-empty, a fresh Program, the memoized walk over every
initial package, and the parallel result list. -/
def Packages (G : PkgGraph) (initial : List PkgId) (mode : Nat) (fuel : Nat) :
    Option (SsaProgram × List (Option Nat)) :=
  match packagesLoop G fuel ⟨SsaProgram.new (initFset G initial) mode, []⟩ initial with
  | none => none
  | some (st, vs) => some (st.prog, vs)

/-- One `types.Package` as consumed by `BuildPackage`: its import path
and its import edges. Identities again stand for pointers. -/
structure TypesPkg where
  path : String
  imports : List PkgId
deriving DecidableEq, Repr

/-- A graph of type-checked packages for `BuildPackage`. -/
abbrev TypesGraph := PkgId → TypesPkg

/-- Sets the "bodies lowered" flag of the package at one index, the
effect of the body-lowering step `ssapkg.Build()` on the model state
(the lowering algorithm itself is the external capability). -/
def lowerAt : List SsaPackage → Nat → List SsaPackage
  | [], _ => []
  | x :: xs, 0 => ⟨x.tpkg, x.syn, x.tinfo, x.importable, true⟩ :: xs
  | x :: xs, n + 1 => x :: lowerAt xs n

/-- The loop of `createAll` over a package list, threading the Program
and the created set. -/
def stubList (f : SsaProgram × List PkgId → PkgId → Option (SsaProgram × List PkgId)) :
    SsaProgram × List PkgId → List PkgId → Option (SsaProgram × List PkgId)
  | s, [] => some s
  | s, p :: ps =>
    match f s p with
    | none => none
    | some s' => stubList f s' ps

/-- One step of the `createAll` closure of `BuildPackage` on a single
package, the recursion abstracted as `recurse`: skip if already
created, else mark created, create the declaration-only stub (nil
syntax, nil info, importable), then recurse into the package's
imports. -/
def stubStep (T : TypesGraph)
    (recurse : Option (SsaProgram × List PkgId → List PkgId → Option (SsaProgram × List PkgId)))
    (s : SsaProgram × List PkgId) (p : PkgId) : Option (SsaProgram × List PkgId) :=
  if p ∈ s.2 then some s
  else
    match recurse with
    | none => none
    | some go =>
      let pr := s.1.createPackage p none none true
      go (pr.1, p :: s.2) (T p).imports

/-- The recursive `createAll` closure of `BuildPackage` on a single
package. Fuel bounds recursion depth as in `create`. -/
def stubCreate (T : TypesGraph) : Nat → SsaProgram × List PkgId → PkgId →
    Option (SsaProgram × List PkgId)
  | 0, s, p => stubStep T none s p
  | fuel + 1, s, p => stubStep T (some (stubList (fun a q => stubCreate T fuel a q))) s p

/-- `createAll` of `BuildPackage` applied to a package list, starting
from an empty created set. -/
def createAll (T : TypesGraph) (fuel : Nat) (prog : SsaProgram) (ps : List PkgId) :
    Option (SsaProgram × List PkgId) :=
  stubList (fun a q => stubCreate T fuel a q) (prog, []) ps

/-- Outcome of `BuildPackage`: a fatal precondition panic, a returned
type-checking error (nothing constructed), or success carrying the
Program, the index of the primary IR package and the type-information
record. -/
inductive BuildOutcome where
  | panicked (msg : String)
  | failed (e : String)
  | ok (prog : SsaProgram) (pkgIdx : Nat) (tinfo : Nat)
deriving DecidableEq, Repr

/-- `BuildPackage(tc, fset, pkg, files, mode)`. The external
type-checker capability is abstracted by its outcome on these inputs:
`checkErr` (`some e` iff `types.NewChecker(...).Files(files)` reports
`e`) and `tinfoVal`, the opaque content the checker writes into the
freshly allocated type-information record. Panics on a nil position
table or an empty import path before anything else; returns the checker
error with nothing built; otherwise creates the Program, walks all
imports as stubs, creates the primary package with its syntax and fresh
info, and lowers the primary package's bodies only. `none` again means
the walk's fuel ran out. -/
def BuildPackage (T : TypesGraph) (checkErr : Option String) (tinfoVal : Nat)
    (fset : Option Nat) (pkg : PkgId) (files : Nat) (mode : Nat) (fuel : Nat) :
    Option BuildOutcome :=
  if fset = none then some (.panicked "no token.FileSet")
  else if (T pkg).path = "" then some (.panicked "package has no import path")
  else
    match checkErr with
    | some e => some (.failed e)
    | none =>
      let prog := SsaProgram.new fset mode
      match createAll T fuel prog (T pkg).imports with
      | none => none
      | some (prog1, _) =>
        let pr := prog1.createPackage pkg (some files) (some tinfoVal) false
        some (.ok ⟨pr.1.fset, pr.1.mode, lowerAt pr.1.packages pr.2⟩ pr.2 tinfoVal)

/-! ### Ordering of walk states

The walk only ever grows the cache and appends to the Program's package
list; the position table and flags never change. -/

/-- Every binding visible in the first cache is visible unchanged in the
second. -/
def SeenLe (s1 s2 : List (PkgId × Option Nat)) : Prop :=
  ∀ p v, lookupSeen s1 p = some v → lookupSeen s2 p = some v

/-- The walk-state order: the cache grew, the Program's package list was
only appended to, and the position table and mode are untouched. -/
def StLe (a b : WalkState) : Prop :=
  SeenLe a.seen b.seen ∧ b.prog.fset = a.prog.fset ∧ b.prog.mode = a.prog.mode ∧
    ∃ ext, b.prog.packages = a.prog.packages ++ ext

theorem stle_refl {a : WalkState} : StLe a a :=
  ⟨fun _ _ h => h, rfl, rfl, [], by simp⟩

theorem stle_trans {a b c : WalkState} (h1 : StLe a b) (h2 : StLe b c) : StLe a c := by
  obtain ⟨s1, f1, m1, e1, he1⟩ := h1
  obtain ⟨s2, f2, m2, e2, he2⟩ := h2
  exact ⟨fun p v h => s2 p v (s1 p v h), f2.trans f1, m2.trans m1, e1 ++ e2,
    by rw [he2, he1, List.append_assoc]⟩

theorem lookupSeen_cons (k : PkgId) (v : Option Nat) (s : List (PkgId × Option Nat)) (p : PkgId) :
    lookupSeen ((k, v) :: s) p = if k = p then some v else lookupSeen s p := rfl

/-- Consing a binding for an absent key preserves all visible bindings. -/
theorem seenLe_cons_of_absent {s : List (PkgId × Option Nat)} {p : PkgId}
    (h : lookupSeen s p = none) (v : Option Nat) : SeenLe s ((p, v) :: s) := by
  intro q w hq
  rw [lookupSeen_cons]
  split
  · rename_i hpq
    rw [hpq] at h
    rw [h] at hq
    exact absurd hq (by simp)
  · exact hq

/-! ### Unfolding equations for the `create` closure -/

theorem create_eq_zero (G : PkgGraph) (st : WalkState) (p : PkgId) :
    create G 0 st p = createStep G none st p := rfl

theorem create_eq_succ (G : PkgGraph) (fuel : Nat) (st : WalkState) (p : PkgId) :
    create G (fuel + 1) st p = createStep G (some (createList G fuel)) st p := rfl

/-- Cache hit: the cached value is returned and the state is untouched —
no recursion, no creation. -/
theorem createStep_hit {G : PkgGraph} {st : WalkState} {p : PkgId} {v : Option Nat}
    (h : lookupSeen st.seen p = some v)
    (recurse : Option (WalkState → List PkgId → Option WalkState)) :
    createStep G recurse st p = some (st, v) := by
  unfold createStep
  rw [h]

/-- Ill-typed package: the sentinel is cached, nothing is created and the
imports are not visited. -/
theorem createStep_ill {G : PkgGraph} {st : WalkState} {p : PkgId}
    (h : lookupSeen st.seen p = none) (hil : ((G p).typesNil || (G p).illTyped) = true)
    (recurse : Option (WalkState → List PkgId → Option WalkState)) :
    createStep G recurse st p = some (⟨st.prog, (p, none) :: st.seen⟩, none) := by
  unfold createStep
  rw [h, hil]
  rfl

/-- Out of fuel on an unvisited well-typed package. -/
theorem createStep_none {G : PkgGraph} {st : WalkState} {p : PkgId}
    (h : lookupSeen st.seen p = none) (hw : ((G p).typesNil || (G p).illTyped) = false) :
    createStep G none st p = none := by
  unfold createStep
  rw [h, hw]
  rfl

/-- Unvisited well-typed package: the new IR package is created and
cached, and only then are the imports walked — the state handed to the
recursion already holds the binding for `p`. -/
theorem createStep_go {G : PkgGraph} {st : WalkState} {p : PkgId}
    (h : lookupSeen st.seen p = none) (hw : ((G p).typesNil || (G p).illTyped) = false)
    (go : WalkState → List PkgId → Option WalkState) :
    createStep G (some go) st p =
      match go ⟨(st.prog.createPackage p (some (G p).syn) (some (G p).tinfo) true).1,
          (p, some st.prog.packages.length) :: st.seen⟩ (G p).imports with
      | none => none
      | some st'' => some (st'', some st.prog.packages.length) := by
  unfold createStep
  rw [h, hw]
  rfl

/-- Cache hit at any fuel. -/
theorem create_hit {G : PkgGraph} {st : WalkState} {p : PkgId} {v : Option Nat}
    (h : lookupSeen st.seen p = some v) (fuel : Nat) : create G fuel st p = some (st, v) := by
  cases fuel with
  | zero => rw [create_eq_zero]; exact createStep_hit h _
  | succ f => rw [create_eq_succ]; exact createStep_hit h _

/-- Ill-typed sentinel at any fuel. -/
theorem create_ill {G : PkgGraph} {st : WalkState} {p : PkgId}
    (h : lookupSeen st.seen p = none) (hil : ((G p).typesNil || (G p).illTyped) = true)
    (fuel : Nat) : create G fuel st p = some (⟨st.prog, (p, none) :: st.seen⟩, none) := by
  cases fuel with
  | zero => rw [create_eq_zero]; exact createStep_ill h hil _
  | succ f => rw [create_eq_succ]; exact createStep_ill h hil _

/-- Out of fuel on an unvisited well-typed package. -/
theorem create_zero {G : PkgGraph} {st : WalkState} {p : PkgId}
    (h : lookupSeen st.seen p = none) (hw : ((G p).typesNil || (G p).illTyped) = false) :
    create G 0 st p = none := by
  rw [create_eq_zero]
  exact createStep_none h hw

/-- Unvisited well-typed package: create, cache, then recurse. -/
theorem create_succ {G : PkgGraph} {st : WalkState} {p : PkgId}
    (h : lookupSeen st.seen p = none) (hw : ((G p).typesNil || (G p).illTyped) = false)
    (fuel : Nat) :
    create G (fuel + 1) st p =
      match createList G fuel
          ⟨(st.prog.createPackage p (some (G p).syn) (some (G p).tinfo) true).1,
            (p, some st.prog.packages.length) :: st.seen⟩ (G p).imports with
      | none => none
      | some st'' => some (st'', some st.prog.packages.length) := by
  rw [create_eq_succ]
  exact createStep_go h hw _

theorem goList_nil (f : WalkState → PkgId → Option (WalkState × Option Nat)) (st : WalkState) :
    goList f st [] = some st := rfl

theorem goList_cons (f : WalkState → PkgId → Option (WalkState × Option Nat)) (st : WalkState)
    (p : PkgId) (ps : List PkgId) :
    goList f st (p :: ps) =
      match f st p with
      | none => none
      | some (st', _) => goList f st' ps := rfl

/-- A step-wise monotone action yields a monotone list walk. -/
theorem goList_stle {f : WalkState → PkgId → Option (WalkState × Option Nat)}
    (hf : ∀ s q r, f s q = some r → StLe s r.1) :
    ∀ (ps : List PkgId) (s s' : WalkState), goList f s ps = some s' → StLe s s' := by
  intro ps
  induction ps with
  | nil =>
    intro s s' h
    rw [goList_nil] at h
    cases h
    exact stle_refl
  | cons p ps ih =>
    intro s s' h
    rw [goList_cons] at h
    cases hf1 : f s p with
    | none => rw [hf1] at h; exact absurd h (by simp)
    | some r =>
      rw [hf1] at h
      exact stle_trans (hf s p r hf1) (ih r.1 s' h)

/-- The walk only grows the state: the cache extends, the package list
is appended to, the position table and mode are unchanged. -/
theorem create_stle (G : PkgGraph) :
    ∀ (fuel : Nat) (st : WalkState) (p : PkgId) (r : WalkState × Option Nat),
      create G fuel st p = some r → StLe st r.1 := by
  intro fuel
  induction fuel with
  | zero =>
    intro st p r h
    cases hls : lookupSeen st.seen p with
    | some v => rw [create_hit hls] at h; cases h; exact stle_refl
    | none =>
      cases hil : (G p).typesNil || (G p).illTyped with
      | true =>
        rw [create_ill hls hil] at h
        cases h
        exact ⟨seenLe_cons_of_absent hls none, rfl, rfl, [], by simp⟩
      | false => rw [create_zero hls hil] at h; exact absurd h (by simp)
  | succ f ih =>
    intro st p r h
    cases hls : lookupSeen st.seen p with
    | some v => rw [create_hit hls] at h; cases h; exact stle_refl
    | none =>
      cases hil : (G p).typesNil || (G p).illTyped with
      | true =>
        rw [create_ill hls hil] at h
        cases h
        exact ⟨seenLe_cons_of_absent hls none, rfl, rfl, [], by simp⟩
      | false =>
        rw [create_succ hls hil] at h
        cases hgo : createList G f
            ⟨(st.prog.createPackage p (some (G p).syn) (some (G p).tinfo) true).1,
              (p, some st.prog.packages.length) :: st.seen⟩ (G p).imports with
        | none => rw [hgo] at h; exact absurd h (by simp)
        | some st'' =>
          rw [hgo] at h
          cases h
          have h1 : StLe st ⟨(st.prog.createPackage p (some (G p).syn)
              (some (G p).tinfo) true).1, (p, some st.prog.packages.length) :: st.seen⟩ :=
            ⟨seenLe_cons_of_absent hls _, rfl, rfl,
              [⟨p, some (G p).syn, some (G p).tinfo, true, false⟩], rfl⟩
          exact stle_trans h1 (goList_stle (fun s q r2 hr => ih s q r2 hr) _ _ _ hgo)

/-- `createList` only grows the state. -/
theorem createList_stle (G : PkgGraph) (fuel : Nat) (ps : List PkgId) (s s' : WalkState)
    (h : createList G fuel s ps = some s') : StLe s s' :=
  goList_stle (fun a q r hr => create_stle G fuel a q r hr) ps s s' h

/-! ### Coherence of the cache with the Program

The single-creation invariant: each created IR package is cached under
its identity at its own index, and each non-sentinel cache entry points
back at the unique IR package wrapping that identity. -/

/-- Coherence of a walk state: cache and created packages are in exact
mutual correspondence. -/
def Coherent (G : PkgGraph) (st : WalkState) : Prop :=
  (∀ j (h : j < st.prog.packages.length),
      lookupSeen st.seen (st.prog.packages[j]).tpkg = some (some j)) ∧
  (∀ p idx, lookupSeen st.seen p = some (some idx) →
      ∃ h : idx < st.prog.packages.length,
        st.prog.packages[idx] = ⟨p, some (G p).syn, some (G p).tinfo, true, false⟩)

theorem coherent_empty (G : PkgGraph) (prog : SsaProgram) (h : prog.packages = []) :
    Coherent G ⟨prog, []⟩ := by
  constructor
  · intro j hj
    rw [h] at hj
    exact absurd hj (by simp)
  · intro p idx hp
    exact absurd hp (by simp [lookupSeen])

/-- Caching the sentinel for an unvisited identity preserves coherence. -/
theorem coherent_ill {G : PkgGraph} {st : WalkState} {p : PkgId} (hc : Coherent G st)
    (h : lookupSeen st.seen p = none) : Coherent G ⟨st.prog, (p, none) :: st.seen⟩ := by
  constructor
  · intro j hj
    have h1 := hc.1 j hj
    rw [lookupSeen_cons]
    split
    · rename_i hpq
      rw [← hpq] at h1
      rw [h] at h1
      exact absurd h1 (by simp)
    · exact h1
  · intro q idx hq
    rw [lookupSeen_cons] at hq
    split at hq
    · exact absurd hq (by simp)
    · exact hc.2 q idx hq

/-- Creating and caching the IR package for an unvisited well-typed
identity preserves coherence. -/
theorem coherent_created {G : PkgGraph} {st : WalkState} {p : PkgId} (hc : Coherent G st)
    (h : lookupSeen st.seen p = none) :
    Coherent G ⟨(st.prog.createPackage p (some (G p).syn) (some (G p).tinfo) true).1,
      (p, some st.prog.packages.length) :: st.seen⟩ := by
  constructor
  · intro j hj
    simp only [SsaProgram.createPackage, List.length_append, List.length_cons,
      List.length_nil] at hj
    rcases Nat.lt_or_ge j st.prog.packages.length with hlt | hge
    · have hget : (st.prog.packages ++
          [⟨p, some (G p).syn, some (G p).tinfo, true, false⟩])[j] = st.prog.packages[j] :=
        List.getElem_append_left hlt
      have h1 := hc.1 j hlt
      simp only [SsaProgram.createPackage]
      rw [hget, lookupSeen_cons]
      split
      · rename_i hpq
        rw [← hpq] at h1
        rw [h] at h1
        exact absurd h1 (by simp)
      · exact h1
    · have hj' : j = st.prog.packages.length := by omega
      simp only [SsaProgram.createPackage]
      have hget : (st.prog.packages ++
          [⟨p, some (G p).syn, some (G p).tinfo, true, false⟩])[j] =
          (⟨p, some (G p).syn, some (G p).tinfo, true, false⟩ : SsaPackage) :=
        List.getElem_concat_length _ _ _ hj' _
      rw [hget, lookupSeen_cons, hj']
      simp
  · intro q idx hq
    rw [lookupSeen_cons] at hq
    split at hq
    · rename_i hpq
      cases hq
      refine ⟨by simp [SsaProgram.createPackage], ?_⟩
      rw [← hpq]
      exact List.getElem_concat_length _ _ _ rfl _
    · obtain ⟨hlt, hval⟩ := hc.2 q idx hq
      refine ⟨by simp [SsaProgram.createPackage]; omega, ?_⟩
      simpa [SsaProgram.createPackage, List.getElem_append_left hlt] using hval

/-- A step-wise invariant-preserving action preserves it over the list
walk. -/
theorem goList_pres {f : WalkState → PkgId → Option (WalkState × Option Nat)}
    (P : WalkState → Prop) (hf : ∀ s q r, P s → f s q = some r → P r.1) :
    ∀ (ps : List PkgId) (s s' : WalkState), P s → goList f s ps = some s' → P s' := by
  intro ps
  induction ps with
  | nil =>
    intro s s' hP h
    rw [goList_nil] at h
    cases h
    exact hP
  | cons p ps ih =>
    intro s s' hP h
    rw [goList_cons] at h
    cases hf1 : f s p with
    | none => rw [hf1] at h; exact absurd h (by simp)
    | some r =>
      rw [hf1] at h
      exact ih r.1 s' (hf s p r hP hf1) h

/-- The walk preserves coherence: no identity is ever represented by two
IR packages. -/
theorem create_coherent (G : PkgGraph) :
    ∀ (fuel : Nat) (st : WalkState) (p : PkgId) (r : WalkState × Option Nat),
      Coherent G st → create G fuel st p = some r → Coherent G r.1 := by
  intro fuel
  induction fuel with
  | zero =>
    intro st p r hc h
    cases hls : lookupSeen st.seen p with
    | some v => rw [create_hit hls] at h; cases h; exact hc
    | none =>
      cases hil : (G p).typesNil || (G p).illTyped with
      | true => rw [create_ill hls hil] at h; cases h; exact coherent_ill hc hls
      | false => rw [create_zero hls hil] at h; exact absurd h (by simp)
  | succ f ih =>
    intro st p r hc h
    cases hls : lookupSeen st.seen p with
    | some v => rw [create_hit hls] at h; cases h; exact hc
    | none =>
      cases hil : (G p).typesNil || (G p).illTyped with
      | true => rw [create_ill hls hil] at h; cases h; exact coherent_ill hc hls
      | false =>
        rw [create_succ hls hil] at h
        cases hgo : createList G f
            ⟨(st.prog.createPackage p (some (G p).syn) (some (G p).tinfo) true).1,
              (p, some st.prog.packages.length) :: st.seen⟩ (G p).imports with
        | none => rw [hgo] at h; exact absurd h (by simp)
        | some st'' =>
          rw [hgo] at h
          cases h
          exact goList_pres (Coherent G) (fun s q r2 hP hr => ih s q r2 hP hr) _ _ _
            (coherent_created hc hls) hgo

/-- After `create` returns, the cache holds its return value for `p`. -/
theorem create_cached (G : PkgGraph) (fuel : Nat) (st : WalkState) (p : PkgId)
    (r : WalkState × Option Nat) (h : create G fuel st p = some r) :
    lookupSeen r.1.seen p = some r.2 := by
  cases hls : lookupSeen st.seen p with
  | some v =>
    rw [create_hit hls] at h
    cases h
    exact hls
  | none =>
    cases hil : (G p).typesNil || (G p).illTyped with
    | true =>
      rw [create_ill hls hil] at h
      cases h
      simp [lookupSeen_cons]
    | false =>
      cases fuel with
      | zero => rw [create_zero hls hil] at h; exact absurd h (by simp)
      | succ f =>
        rw [create_succ hls hil] at h
        cases hgo : createList G f
            ⟨(st.prog.createPackage p (some (G p).syn) (some (G p).tinfo) true).1,
              (p, some st.prog.packages.length) :: st.seen⟩ (G p).imports with
        | none => rw [hgo] at h; exact absurd h (by simp)
        | some st'' =>
          rw [hgo] at h
          cases h
          have hmem : lookupSeen ((p, some st.prog.packages.length) :: st.seen) p =
              some (some st.prog.packages.length) := by simp [lookupSeen_cons]
          exact (createList_stle G f _ _ _ hgo).1 p _ hmem

/-- Coherence implies the single-creation invariant: the underlying
identities of the created IR packages are pairwise distinct. -/
theorem coherent_nodup {G : PkgGraph} {st : WalkState} (hc : Coherent G st) :
    (st.prog.packages.map (fun pk => pk.tpkg)).Nodup := by
  rw [List.nodup_iff_injective_get]
  intro i j hij
  have hi : i.1 < st.prog.packages.length := by
    have := i.2
    simpa using this
  have hj : j.1 < st.prog.packages.length := by
    have := j.2
    simpa using this
  have h1 := hc.1 i.1 hi
  have h2 := hc.1 j.1 hj
  rw [List.get_map, List.get_map] at hij
  have heq : (st.prog.packages[i.1]).tpkg = (st.prog.packages[j.1]).tpkg := hij
  rw [heq] at h1
  rw [h2] at h1
  have : i.1 = j.1 := by
    have := Option.some.inj h1
    exact (Option.some.inj this).symm
  exact Fin.ext this

theorem packagesLoop_nil (G : PkgGraph) (fuel : Nat) (st : WalkState) :
    packagesLoop G fuel st [] = some (st, []) := rfl

theorem packagesLoop_cons (G : PkgGraph) (fuel : Nat) (st : WalkState) (p : PkgId)
    (ps : List PkgId) :
    packagesLoop G fuel st (p :: ps) =
      match create G fuel st p with
      | none => none
      | some (st', v) =>
        match packagesLoop G fuel st' ps with
        | none => none
        | some (st'', vs) => some (st'', v :: vs) := rfl

/-- Everything the result loop guarantees: coherence is preserved, the
state only grows, the results are as long as the inputs, and the i-th
result is exactly the final cached value of the i-th input identity. -/
theorem packagesLoop_spec (G : PkgGraph) (fuel : Nat) :
    ∀ (ps : List PkgId) (st st' : WalkState) (vs : List (Option Nat)),
      Coherent G st → packagesLoop G fuel st ps = some (st', vs) →
      Coherent G st' ∧ StLe st st' ∧ vs.length = ps.length ∧
        (∀ i (h1 : i < ps.length) (h2 : i < vs.length),
          lookupSeen st'.seen ps[i] = some vs[i]) := by
  intro ps
  induction ps with
  | nil =>
    intro st st' vs hc h
    rw [packagesLoop_nil] at h
    cases h
    exact ⟨hc, stle_refl, rfl, fun i h1 h2 => absurd h1 (by simp)⟩
  | cons p ps ih =>
    intro st st' vs hc h
    rw [packagesLoop_cons] at h
    cases hcr : create G fuel st p with
    | none => rw [hcr] at h; exact absurd h (by simp)
    | some r =>
      rw [hcr] at h
      obtain ⟨st1, v⟩ := r
      dsimp only at h
      cases hlp : packagesLoop G fuel st1 ps with
      | none => rw [hlp] at h; exact absurd h (by simp)
      | some r2 =>
        rw [hlp] at h
        obtain ⟨st2, vs'⟩ := r2
        cases h
        obtain ⟨hc2, hle2, hlen, hidx⟩ := ih st1 st' vs' (create_coherent G fuel st p _ hc hcr) hlp
        have hle1 : StLe st st1 := create_stle G fuel st p _ hcr
        have hcache : lookupSeen st'.seen p = some v :=
          hle2.1 p v (create_cached G fuel st p _ hcr)
        refine ⟨hc2, stle_trans hle1 hle2, by simp [hlen], ?_⟩
        intro i h1 h2
        cases i with
        | zero => simpa using hcache
        | succ k =>
          have hk1 : k < ps.length := by simpa using h1
          have hk2 : k < vs'.length := by simpa using h2
          simpa using hidx k hk1 hk2

/-- Splits a successful `Packages` run into its loop run. -/
theorem Packages_dest {G : PkgGraph} {initial : List PkgId} {mode fuel : Nat}
    {prog : SsaProgram} {res : List (Option Nat)}
    (h : Packages G initial mode fuel = some (prog, res)) :
    ∃ st : WalkState,
      packagesLoop G fuel ⟨SsaProgram.new (initFset G initial) mode, []⟩ initial =
        some (st, res) ∧ st.prog = prog := by
  unfold Packages at h
  cases hl : packagesLoop G fuel ⟨SsaProgram.new (initFset G initial) mode, []⟩ initial with
  | none => rw [hl] at h; exact absurd h (by simp)
  | some r =>
    obtain ⟨st, vs⟩ := r
    rw [hl] at h
    cases h
    exact ⟨st, rfl, rfl⟩

theorem createList_nil (G : PkgGraph) (fuel : Nat) (st : WalkState) :
    createList G fuel st [] = some st := rfl

theorem createList_cons (G : PkgGraph) (fuel : Nat) (st : WalkState) (p : PkgId)
    (ps : List PkgId) :
    createList G fuel st (p :: ps) =
      match create G fuel st p with
      | none => none
      | some (st', _) => createList G fuel st' ps := rfl

/-! ### Sufficient fuel always exists

The source has no fuel: its recursion terminates because the cache
entry is written before descending, so each level of recursion enters a
strictly smaller set of unvisited identities. Fuel equal to the size of
the identity universe is always enough — even on cyclic graphs. -/

/-- How many identities below `n` the cache does not know yet. -/
def missingCount (seen : List (PkgId × Option Nat)) (n : Nat) : Nat :=
  ((Finset.range n).filter (fun i => lookupSeen seen i = none)).card

theorem missingCount_le (seen : List (PkgId × Option Nat)) (n : Nat) :
    missingCount seen n ≤ n := by
  have h := Finset.card_filter_le (Finset.range n) (fun i => lookupSeen seen i = none)
  simpa [missingCount] using h

theorem missingCount_mono {s s' : List (PkgId × Option Nat)} (h : SeenLe s s') (n : Nat) :
    missingCount s' n ≤ missingCount s n := by
  apply Finset.card_le_card
  intro i hi
  rw [Finset.mem_filter] at hi ⊢
  refine ⟨hi.1, ?_⟩
  cases hls : lookupSeen s i with
  | none => rfl
  | some v =>
    have := h i v hls
    rw [this] at hi
    exact absurd hi.2 (by simp)

theorem missingCount_pos {s : List (PkgId × Option Nat)} {n p : Nat} (hp : p < n)
    (h : lookupSeen s p = none) : 0 < missingCount s n :=
  Finset.card_pos.2 ⟨p, Finset.mem_filter.2 ⟨Finset.mem_range.2 hp, h⟩⟩

/-- Writing the cache entry for an unvisited identity strictly shrinks
the set of unvisited identities. -/
theorem missingCount_cons_lt {s : List (PkgId × Option Nat)} {n p : Nat} (hp : p < n)
    (h : lookupSeen s p = none) (v : Option Nat) :
    missingCount ((p, v) :: s) n < missingCount s n := by
  apply Finset.card_lt_card
  have hsub : (Finset.range n).filter (fun i => lookupSeen ((p, v) :: s) i = none) ⊆
      (Finset.range n).filter (fun i => lookupSeen s i = none) := by
    intro i hi
    rw [Finset.mem_filter] at hi ⊢
    refine ⟨hi.1, ?_⟩
    have h2 := hi.2
    rw [lookupSeen_cons] at h2
    split at h2
    · exact absurd h2 (by simp)
    · exact h2
  rw [Finset.ssubset_iff_of_subset hsub]
  refine ⟨p, Finset.mem_filter.2 ⟨Finset.mem_range.2 hp, h⟩, ?_⟩
  rw [Finset.mem_filter, lookupSeen_cons]
  simp

/-- With fuel at least the number of unvisited identities, the walk
never runs out: memoization-before-recursion terminates on every graph
shape, cycles included. -/
theorem create_isSome_of_fuel (G : PkgGraph) (n : Nat)
    (hG : ∀ i, i < n → ∀ q ∈ (G i).imports, q < n) :
    ∀ fuel : Nat,
      (∀ (st : WalkState) (p : PkgId), p < n → missingCount st.seen n ≤ fuel →
        (create G fuel st p).isSome = true) ∧
      (∀ (ps : List PkgId) (st : WalkState), (∀ q ∈ ps, q < n) →
        missingCount st.seen n ≤ fuel → (createList G fuel st ps).isSome = true) := by
  intro fuel
  induction fuel with
  | zero =>
    have part1 : ∀ (st : WalkState) (p : PkgId), p < n → missingCount st.seen n ≤ 0 →
        (create G 0 st p).isSome = true := by
      intro st p hp hm
      cases hls : lookupSeen st.seen p with
      | some v => rw [create_hit hls]; rfl
      | none => exact absurd (missingCount_pos hp hls) (by omega)
    refine ⟨part1, ?_⟩
    intro ps
    induction ps with
    | nil => intro st hq hm; rfl
    | cons q qs ihq =>
      intro st hq hm
      have h1 := part1 st q (hq q (by simp)) hm
      cases hcr : create G 0 st q with
      | none => rw [hcr] at h1; exact absurd h1 (by simp)
      | some r =>
        rw [createList_cons, hcr]
        obtain ⟨st1, v⟩ := r
        dsimp only
        refine ihq st1 (fun x hx => hq x (by simp [hx])) ?_
        have h4 : missingCount st1.seen n ≤ missingCount st.seen n :=
          missingCount_mono (create_stle G 0 st q (st1, v) hcr).1 n
        omega
  | succ f ih =>
    have part1 : ∀ (st : WalkState) (p : PkgId), p < n → missingCount st.seen n ≤ f + 1 →
        (create G (f + 1) st p).isSome = true := by
      intro st p hp hm
      cases hls : lookupSeen st.seen p with
      | some v => rw [create_hit hls]; rfl
      | none =>
        cases hil : (G p).typesNil || (G p).illTyped with
        | true => rw [create_ill hls hil]; rfl
        | false =>
          rw [create_succ hls hil]
          have hlt := missingCount_cons_lt hp hls (some st.prog.packages.length)
          have hm' : missingCount ((p, some st.prog.packages.length) :: st.seen) n ≤ f := by
            omega
          have hsome := ih.2 (G p).imports
            ⟨(st.prog.createPackage p (some (G p).syn) (some (G p).tinfo) true).1,
              (p, some st.prog.packages.length) :: st.seen⟩ (fun q hq => hG p hp q hq) hm'
          cases hgo : createList G f
              ⟨(st.prog.createPackage p (some (G p).syn) (some (G p).tinfo) true).1,
                (p, some st.prog.packages.length) :: st.seen⟩ (G p).imports with
          | none => rw [hgo] at hsome; exact absurd hsome (by simp)
          | some st'' => rfl
    refine ⟨part1, ?_⟩
    intro ps
    induction ps with
    | nil => intro st hq hm; rfl
    | cons q qs ihq =>
      intro st hq hm
      have h1 := part1 st q (hq q (by simp)) hm
      cases hcr : create G (f + 1) st q with
      | none => rw [hcr] at h1; exact absurd h1 (by simp)
      | some r =>
        rw [createList_cons, hcr]
        obtain ⟨st1, v⟩ := r
        dsimp only
        refine ihq st1 (fun x hx => hq x (by simp [hx])) ?_
        have h4 : missingCount st1.seen n ≤ missingCount st.seen n :=
          missingCount_mono (create_stle G (f + 1) st q (st1, v) hcr).1 n
        omega

/-- The result loop never runs out of fuel either. -/
theorem packagesLoop_isSome_of_fuel (G : PkgGraph) (n : Nat)
    (hG : ∀ i, i < n → ∀ q ∈ (G i).imports, q < n) (fuel : Nat) :
    ∀ (ps : List PkgId) (st : WalkState), (∀ q ∈ ps, q < n) →
      missingCount st.seen n ≤ fuel → (packagesLoop G fuel st ps).isSome = true := by
  intro ps
  induction ps with
  | nil => intro st hq hm; rfl
  | cons q qs ihq =>
    intro st hq hm
    have h1 := (create_isSome_of_fuel G n hG fuel).1 st q (hq q (by simp)) hm
    cases hcr : create G fuel st q with
    | none => rw [hcr] at h1; exact absurd h1 (by simp)
    | some r =>
      rw [packagesLoop_cons, hcr]
      obtain ⟨st1, v⟩ := r
      dsimp only
      have hm1 : missingCount st1.seen n ≤ fuel := by
        have h4 : missingCount st1.seen n ≤ missingCount st.seen n :=
          missingCount_mono (create_stle G fuel st q (st1, v) hcr).1 n
        omega
      have h2 := ihq st1 (fun x hx => hq x (by simp [hx])) hm1
      cases hlp : packagesLoop G fuel st1 qs with
      | none => rw [hlp] at h2; exact absurd h2 (by simp)
      | some r2 => rfl

/-- With fuel at least the universe size, `Packages` always returns. -/
theorem Packages_isSome_of_fuel (G : PkgGraph) (n : Nat)
    (hG : ∀ i, i < n → ∀ q ∈ (G i).imports, q < n)
    (initial : List PkgId) (hinit : ∀ p ∈ initial, p < n) (mode fuel : Nat)
    (hfuel : n ≤ fuel) : (Packages G initial mode fuel).isSome = true := by
  have hm : missingCount ([] : List (PkgId × Option Nat)) n ≤ fuel :=
    le_trans (missingCount_le [] n) hfuel
  have h := packagesLoop_isSome_of_fuel G n hG fuel initial
    ⟨SsaProgram.new (initFset G initial) mode, []⟩ hinit hm
  unfold Packages
  cases hl : packagesLoop G fuel ⟨SsaProgram.new (initFset G initial) mode, []⟩ initial with
  | none => rw [hl] at h; exact absurd h (by simp)
  | some r =>
    obtain ⟨st, vs⟩ := r
    rfl

/-! ### Concrete package graphs used as test inputs -/

/-- Diamond: A(0) imports B(1) and C(2); B and C both import D(3). -/
def Gdiamond : PkgGraph := fun i =>
  if i = 0 then ⟨some 1, false, false, 10, 20, [1, 2]⟩
  else if i = 1 then ⟨some 1, false, false, 11, 21, [3]⟩
  else if i = 2 then ⟨some 1, false, false, 12, 22, [3]⟩
  else ⟨some 1, false, false, 13, 23, []⟩

/-- Three import-free top-level packages; the second is ill-typed. -/
def Gmixed : PkgGraph := fun i =>
  if i = 0 then ⟨some 5, false, false, 10, 20, []⟩
  else if i = 1 then ⟨some 5, false, true, 11, 21, []⟩
  else ⟨some 5, false, false, 12, 22, []⟩

/-- A two-package import cycle: 0 imports 1 and 1 imports 0. -/
def Gcycle : PkgGraph := fun i =>
  if i = 0 then ⟨some 9, false, false, 10, 20, [1]⟩
  else ⟨some 9, false, false, 11, 21, [0]⟩

/-! ### The claims about `Packages` -/

/-- C1: for a fixed Program, the walk creates at most one IR package per
underlying identity (the identities of the created packages are pairwise
distinct in every successful run); a later encounter of a cached
identity returns the cached instance unchanged; and on the diamond
graph (A imports B, C; B and C import D) exactly one IR package wraps
D. -/
theorem c1_single_creation_per_identity :
    (∀ (G : PkgGraph) (initial : List PkgId) (mode fuel : Nat) (prog : SsaProgram)
      (res : List (Option Nat)), Packages G initial mode fuel = some (prog, res) →
      (prog.packages.map (fun pk => pk.tpkg)).Nodup) ∧
    (∀ (G : PkgGraph) (fuel : Nat) (st : WalkState) (p : PkgId) (v : Option Nat),
      lookupSeen st.seen p = some v → create G fuel st p = some (st, v)) ∧
    ((Packages Gdiamond [0] 0 4).map
      (fun r => (r.1.packages.map (fun pk => pk.tpkg)).count 3) = some 1) := by
  refine ⟨?_, ?_, by decide⟩
  · intro G initial mode fuel prog res h
    obtain ⟨st, hl, hprog⟩ := Packages_dest h
    have hc := (packagesLoop_spec G fuel initial _ st res (coherent_empty G _ rfl) hl).1
    rw [← hprog]
    exact coherent_nodup hc
  · intro G fuel st p v h
    exact create_hit h fuel

theorem c1_single_creation_per_identity_witness :
    ((⟨some 1, 0, [⟨0, some 10, some 20, true, false⟩, ⟨1, some 11, some 21, true, false⟩,
        ⟨3, some 13, some 23, true, false⟩, ⟨2, some 12, some 22, true, false⟩]⟩ :
      SsaProgram).packages.map (fun pk => pk.tpkg)).Nodup :=
  c1_single_creation_per_identity.1 Gdiamond [0] 0 4 _ [some 0] (by decide)

/-- C2: a successful run returns one result per input, in order: the
i-th result is exactly the final cached value of the i-th input
identity, and when it is not the sentinel it indexes an IR package of
the returned Program wrapping exactly that input's identity, syntax and
type information. -/
theorem c2_results_parallel_to_input :
    ∀ (G : PkgGraph) (initial : List PkgId) (mode fuel : Nat) (prog : SsaProgram)
      (res : List (Option Nat)),
      Packages G initial mode fuel = some (prog, res) →
      res.length = initial.length ∧
      ∃ st : WalkState, st.prog = prog ∧
        ∀ i (h1 : i < initial.length) (h2 : i < res.length),
          lookupSeen st.seen initial[i] = some res[i] ∧
          ∀ idx, res[i] = some idx →
            ∃ h : idx < prog.packages.length,
              prog.packages[idx] = ⟨initial[i], some (G initial[i]).syn,
                some (G initial[i]).tinfo, true, false⟩ := by
  intro G initial mode fuel prog res h
  obtain ⟨st, hl, hprog⟩ := Packages_dest h
  obtain ⟨hc, hle, hlen, hidx⟩ :=
    packagesLoop_spec G fuel initial _ st res (coherent_empty G _ rfl) hl
  refine ⟨hlen, st, hprog, ?_⟩
  intro i h1 h2
  refine ⟨hidx i h1 h2, ?_⟩
  intro idx hval
  have hlook : lookupSeen st.seen initial[i] = some (some idx) := by
    rw [hidx i h1 h2, hval]
  obtain ⟨hlt, hpkg⟩ := hc.2 initial[i] idx hlook
  rw [← hprog]
  exact ⟨hlt, hpkg⟩

theorem c2_results_parallel_to_input_witness :
    ([some 0, none, some 1] : List (Option Nat)).length = ([0, 1, 2] : List PkgId).length :=
  (c2_results_parallel_to_input Gmixed [0, 1, 2] 0 4
    ⟨some 5, 0, [⟨0, some 10, some 20, true, false⟩, ⟨2, some 12, some 22, true, false⟩]⟩
    [some 0, none, some 1] (by decide)).1

/-- C3: a visited ill-typed package (type information absent or flagged
ill-typed) gets the sentinel recorded in the cache and returned, with
the Program untouched and the imports not visited; and the concrete
batch of three top-level packages with an ill-typed middle one yields
length-3 results with valid packages at 0 and 2, the sentinel at 1 and
no failure. -/
theorem c3_illtyped_sentinel_isolation :
    (∀ (G : PkgGraph) (fuel : Nat) (st : WalkState) (p : PkgId),
      lookupSeen st.seen p = none → ((G p).typesNil || (G p).illTyped) = true →
      create G fuel st p = some (⟨st.prog, (p, none) :: st.seen⟩, none)) ∧
    (Packages Gmixed [0, 1, 2] 0 4 =
      some (⟨some 5, 0, [⟨0, some 10, some 20, true, false⟩,
        ⟨2, some 12, some 22, true, false⟩]⟩, [some 0, none, some 1])) := by
  refine ⟨?_, by decide⟩
  intro G fuel st p h hil
  exact create_ill h hil fuel

theorem c3_illtyped_sentinel_isolation_witness :
    create Gmixed 0 ⟨SsaProgram.new (some 5) 0, []⟩ 1 =
      some (⟨SsaProgram.new (some 5) 0, [(1, none)]⟩, none) :=
  c3_illtyped_sentinel_isolation.1 Gmixed 0 ⟨SsaProgram.new (some 5) 0, []⟩ 1
    (by decide) (by decide)

/-- C4: the walker stores the new IR package in the cache before
recursing into the imports — the state handed to the recursion already
binds `p` — and in consequence the walk terminates on every graph
whose identities live below some bound, cyclic and reconvergent shapes
included: fuel equal to that bound never runs out. -/
theorem c4_cache_before_recursion_terminates :
    (∀ (G : PkgGraph) (st : WalkState) (p : PkgId) (fuel : Nat),
      lookupSeen st.seen p = none → ((G p).typesNil || (G p).illTyped) = false →
      create G (fuel + 1) st p =
        match createList G fuel
            ⟨(st.prog.createPackage p (some (G p).syn) (some (G p).tinfo) true).1,
              (p, some st.prog.packages.length) :: st.seen⟩ (G p).imports with
        | none => none
        | some st'' => some (st'', some st.prog.packages.length)) ∧
    (∀ (G : PkgGraph) (n : Nat), (∀ i, i < n → ∀ q ∈ (G i).imports, q < n) →
      ∀ (initial : List PkgId), (∀ p ∈ initial, p < n) →
      ∀ (mode fuel : Nat), n ≤ fuel → (Packages G initial mode fuel).isSome = true) := by
  constructor
  · intro G st p fuel h hw
    exact create_succ h hw fuel
  · intro G n hG initial hinit mode fuel hfuel
    exact Packages_isSome_of_fuel G n hG initial hinit mode fuel hfuel

theorem c4_cache_before_recursion_terminates_witness :
    (Packages Gcycle [0] 0 2).isSome = true :=
  c4_cache_before_recursion_terminates.2 Gcycle 2 (by decide) [0] (by decide) 0 2 (by decide)

/-- C5: on a non-empty input, the returned Program's position table is
the first input package's position table. -/
theorem c5_fset_from_first_input :
    ∀ (G : PkgGraph) (p : PkgId) (ps : List PkgId) (mode fuel : Nat) (prog : SsaProgram)
      (res : List (Option Nat)),
      Packages G (p :: ps) mode fuel = some (prog, res) → prog.fset = (G p).fset := by
  intro G p ps mode fuel prog res h
  obtain ⟨st, hl, hprog⟩ := Packages_dest h
  obtain ⟨_, hle, _, _⟩ :=
    packagesLoop_spec G fuel (p :: ps) _ st res (coherent_empty G _ rfl) hl
  rw [← hprog, hle.2.1]
  rfl

theorem c5_fset_from_first_input_witness :
    (⟨some 5, 0, [⟨0, some 10, some 20, true, false⟩, ⟨2, some 12, some 22, true, false⟩]⟩ :
      SsaProgram).fset = (Gmixed 0).fset :=
  c5_fset_from_first_input Gmixed 0 [1, 2] 0 4 _ [some 0, none, some 1] (by decide)

/-- C9: re-invoking the walker on an identity already in the cache —
the ill-typed sentinel included — returns the cached value with the
state unchanged: nothing is created and nothing is visited. -/
theorem c9_cached_reentry_idempotent :
    ∀ (G : PkgGraph) (fuel : Nat) (st : WalkState) (p : PkgId) (v : Option Nat),
      lookupSeen st.seen p = some v → create G fuel st p = some (st, v) := by
  intro G fuel st p v h
  exact create_hit h fuel

theorem c9_cached_reentry_idempotent_witness :
    create Gmixed 3 ⟨SsaProgram.new (some 5) 0, [(7, none)]⟩ 7 =
      some (⟨SsaProgram.new (some 5) 0, [(7, none)]⟩, none) :=
  c9_cached_reentry_idempotent Gmixed 3 ⟨SsaProgram.new (some 5) 0, [(7, none)]⟩ 7 none
    (by decide)

/-- C10: the empty input does not fail: a fresh Program with an absent
position table and an empty result list. -/
theorem c10_empty_input_ok :
    ∀ (G : PkgGraph) (mode fuel : Nat),
      Packages G [] mode fuel = some (⟨none, mode, []⟩, []) := by
  intro G mode fuel
  rfl

/-! ### The stub walk of `BuildPackage` -/

theorem stubList_nil (f : SsaProgram × List PkgId → PkgId → Option (SsaProgram × List PkgId))
    (s : SsaProgram × List PkgId) : stubList f s [] = some s := rfl

theorem stubList_cons (f : SsaProgram × List PkgId → PkgId → Option (SsaProgram × List PkgId))
    (s : SsaProgram × List PkgId) (p : PkgId) (ps : List PkgId) :
    stubList f s (p :: ps) =
      match f s p with
      | none => none
      | some s' => stubList f s' ps := rfl

theorem stubCreate_zero_eq (T : TypesGraph) (s : SsaProgram × List PkgId) (p : PkgId) :
    stubCreate T 0 s p = stubStep T none s p := rfl

theorem stubCreate_succ_eq (T : TypesGraph) (fuel : Nat) (s : SsaProgram × List PkgId)
    (p : PkgId) :
    stubCreate T (fuel + 1) s p =
      stubStep T (some (stubList (fun a q => stubCreate T fuel a q))) s p := rfl

theorem stubStep_mem {T : TypesGraph} {s : SsaProgram × List PkgId} {p : PkgId} (h : p ∈ s.2)
    (recurse : Option (SsaProgram × List PkgId → List PkgId → Option (SsaProgram × List PkgId))) :
    stubStep T recurse s p = some s := by
  unfold stubStep
  rw [if_pos h]

theorem stubStep_none {T : TypesGraph} {s : SsaProgram × List PkgId} {p : PkgId} (h : p ∉ s.2) :
    stubStep T none s p = none := by
  unfold stubStep
  rw [if_neg h]

theorem stubStep_go {T : TypesGraph} {s : SsaProgram × List PkgId} {p : PkgId} (h : p ∉ s.2)
    (go : SsaProgram × List PkgId → List PkgId → Option (SsaProgram × List PkgId)) :
    stubStep T (some go) s p =
      go ((s.1.createPackage p none none true).1, p :: s.2) (T p).imports := by
  unfold stubStep
  rw [if_neg h]

/-- Already-created package: nothing happens at any fuel. -/
theorem stubCreate_mem {T : TypesGraph} {s : SsaProgram × List PkgId} {p : PkgId} (h : p ∈ s.2)
    (fuel : Nat) : stubCreate T fuel s p = some s := by
  cases fuel with
  | zero => rw [stubCreate_zero_eq]; exact stubStep_mem h _
  | succ f => rw [stubCreate_succ_eq]; exact stubStep_mem h _

/-- Uncreated package: mark created, create the stub, then walk the
imports — the created set handed to the recursion already holds `p`. -/
theorem stubCreate_succ {T : TypesGraph} {s : SsaProgram × List PkgId} {p : PkgId} (h : p ∉ s.2)
    (fuel : Nat) :
    stubCreate T (fuel + 1) s p =
      stubList (fun a q => stubCreate T fuel a q)
        ((s.1.createPackage p none none true).1, p :: s.2) (T p).imports := by
  rw [stubCreate_succ_eq]
  exact stubStep_go h _

theorem stubCreate_zero {T : TypesGraph} {s : SsaProgram × List PkgId} {p : PkgId}
    (h : p ∉ s.2) : stubCreate T 0 s p = none := by
  rw [stubCreate_zero_eq]
  exact stubStep_none h

/-- Growth of the stub-walk state: position table and mode unchanged,
package list appended to, created set only extended. -/
def StubPost (s s' : SsaProgram × List PkgId) : Prop :=
  s'.1.fset = s.1.fset ∧ s'.1.mode = s.1.mode ∧
    (∃ ext, s'.1.packages = s.1.packages ++ ext) ∧ (∀ x, x ∈ s.2 → x ∈ s'.2)

theorem stubPost_refl (s : SsaProgram × List PkgId) : StubPost s s :=
  ⟨rfl, rfl, ⟨[], by simp⟩, fun _ h => h⟩

theorem stubPost_trans {a b c : SsaProgram × List PkgId} (h1 : StubPost a b)
    (h2 : StubPost b c) : StubPost a c := by
  obtain ⟨f1, m1, ⟨e1, he1⟩, s1⟩ := h1
  obtain ⟨f2, m2, ⟨e2, he2⟩, s2⟩ := h2
  exact ⟨f2.trans f1, m2.trans m1, ⟨e1 ++ e2, by rw [he2, he1, List.append_assoc]⟩,
    fun x hx => s2 x (s1 x hx)⟩

/-- A step-wise reflexive-transitive relation lifts over `stubList`. -/
theorem stubList_rel {f : SsaProgram × List PkgId → PkgId → Option (SsaProgram × List PkgId)}
    {R : SsaProgram × List PkgId → SsaProgram × List PkgId → Prop}
    (hrefl : ∀ s, R s s) (htrans : ∀ a b c, R a b → R b c → R a c)
    (hf : ∀ s p s', f s p = some s' → R s s') :
    ∀ (ps : List PkgId) (s s' : SsaProgram × List PkgId),
      stubList f s ps = some s' → R s s' := by
  intro ps
  induction ps with
  | nil =>
    intro s s' h
    rw [stubList_nil] at h
    cases h
    exact hrefl s
  | cons p ps ih =>
    intro s s' h
    rw [stubList_cons] at h
    cases hf1 : f s p with
    | none => rw [hf1] at h; exact absurd h (by simp)
    | some s1 =>
      rw [hf1] at h
      exact htrans _ _ _ (hf s p s1 hf1) (ih s1 s' h)

/-- The stub walk only grows the state. -/
theorem stubCreate_post (T : TypesGraph) :
    ∀ (fuel : Nat) (s : SsaProgram × List PkgId) (p : PkgId) (s' : SsaProgram × List PkgId),
      stubCreate T fuel s p = some s' → StubPost s s' := by
  intro fuel
  induction fuel with
  | zero =>
    intro s p s' h
    by_cases hm : p ∈ s.2
    · rw [stubCreate_mem hm] at h
      cases h
      exact stubPost_refl s
    · rw [stubCreate_zero hm] at h
      exact absurd h (by simp)
  | succ f ih =>
    intro s p s' h
    by_cases hm : p ∈ s.2
    · rw [stubCreate_mem hm] at h
      cases h
      exact stubPost_refl s
    · rw [stubCreate_succ hm] at h
      have h1 : StubPost s ((s.1.createPackage p none none true).1, p :: s.2) :=
        ⟨rfl, rfl, ⟨[⟨p, none, none, true, false⟩], rfl⟩, fun x hx => by simp [hx]⟩
      exact stubPost_trans h1
        (stubList_rel stubPost_refl (fun a b c => stubPost_trans) ih _ _ _ h)

theorem stubList_post (T : TypesGraph) (fuel : Nat) :
    ∀ (ps : List PkgId) (s s' : SsaProgram × List PkgId),
      stubList (fun a q => stubCreate T fuel a q) s ps = some s' → StubPost s s' :=
  stubList_rel stubPost_refl (fun a b c => stubPost_trans)
    (fun s p s' h => stubCreate_post T fuel s p s' h)

/-- After a successful step, the package itself is in the created set. -/
theorem stubCreate_self_mem (T : TypesGraph) (fuel : Nat) (s : SsaProgram × List PkgId)
    (p : PkgId) (s' : SsaProgram × List PkgId) (h : stubCreate T fuel s p = some s') :
    p ∈ s'.2 := by
  by_cases hm : p ∈ s.2
  · rw [stubCreate_mem hm] at h
    cases h
    exact hm
  · cases fuel with
    | zero => rw [stubCreate_zero hm] at h; exact absurd h (by simp)
    | succ f =>
      rw [stubCreate_succ hm] at h
      exact (stubList_post T f _ _ _ h).2.2.2 p (by simp)

/-- After a successful list walk, every listed package is created. -/
theorem stubList_all_mem (T : TypesGraph) (fuel : Nat) :
    ∀ (ps : List PkgId) (s s' : SsaProgram × List PkgId),
      stubList (fun a q => stubCreate T fuel a q) s ps = some s' → ∀ q ∈ ps, q ∈ s'.2 := by
  intro ps
  induction ps with
  | nil => intro s s' h q hq; exact absurd hq (by simp)
  | cons p ps ih =>
    intro s s' h q hq
    rw [stubList_cons] at h
    cases hf1 : stubCreate T fuel s p with
    | none => rw [hf1] at h; exact absurd h (by simp)
    | some s1 =>
      rw [hf1] at h
      rcases List.mem_cons.1 hq with rfl | hq'
      · exact (stubList_post T fuel ps s1 s' h).2.2.2 q (stubCreate_self_mem T fuel s q s1 hf1)
      · exact ih s1 s' h q hq'

/-- Transitive reachability through import edges, starting from a root
list: the roots themselves, plus anything imported by a reachable
package. -/
inductive Reach (T : TypesGraph) (roots : List PkgId) : PkgId → Prop
  | base {q : PkgId} : q ∈ roots → Reach T roots q
  | step {r q : PkgId} : Reach T roots r → q ∈ (T r).imports → Reach T roots q

theorem reach_mono {T : TypesGraph} {roots roots' : List PkgId}
    (hsub : ∀ x ∈ roots, x ∈ roots') {q : PkgId} (h : Reach T roots q) :
    Reach T roots' q := by
  induction h with
  | base hm => exact Reach.base (hsub _ hm)
  | step hr hq ih => exact Reach.step ih hq

theorem reach_compose {T : TypesGraph} {roots : List PkgId} {r q : PkgId}
    (h1 : Reach T roots r) (h2 : Reach T (T r).imports q) : Reach T roots q := by
  induction h2 with
  | base hm => exact Reach.step h1 hm
  | step hr hq ih => exact Reach.step ih hq

/-- Soundness of the created set: the stub walk only ever creates
packages reachable from the package it was started on. -/
theorem stubCreate_sound (T : TypesGraph) :
    ∀ (fuel : Nat) (s : SsaProgram × List PkgId) (p : PkgId) (s' : SsaProgram × List PkgId),
      stubCreate T fuel s p = some s' → ∀ x ∈ s'.2, x ∈ s.2 ∨ Reach T [p] x := by
  intro fuel
  induction fuel with
  | zero =>
    intro s p s' h x hx
    by_cases hm : p ∈ s.2
    · rw [stubCreate_mem hm] at h
      cases h
      exact Or.inl hx
    · rw [stubCreate_zero hm] at h
      exact absurd h (by simp)
  | succ f ih =>
    intro s p s' h x hx
    by_cases hm : p ∈ s.2
    · rw [stubCreate_mem hm] at h
      cases h
      exact Or.inl hx
    · rw [stubCreate_succ hm] at h
      have hself : Reach T [p] p := Reach.base (by simp)
      have hlist : ∀ (ps : List PkgId) (a b : SsaProgram × List PkgId),
          stubList (fun a q => stubCreate T f a q) a ps = some b →
          ∀ y ∈ b.2, y ∈ a.2 ∨ Reach T ps y := by
        intro ps
        induction ps with
        | nil =>
          intro a b hl y hy
          rw [stubList_nil] at hl
          cases hl
          exact Or.inl hy
        | cons q qs ihq =>
          intro a b hl y hy
          rw [stubList_cons] at hl
          cases hf1 : stubCreate T f a q with
          | none => rw [hf1] at hl; exact absurd hl (by simp)
          | some s1 =>
            rw [hf1] at hl
            rcases ihq s1 b hl y hy with hys1 | hreach
            · rcases ih a q s1 hf1 y hys1 with hya | hr1
              · exact Or.inl hya
              · refine Or.inr (reach_mono ?_ hr1)
                intro z hz
                simp only [List.mem_singleton] at hz
                simp [hz]
            · refine Or.inr (reach_mono ?_ hreach)
              intro z hz
              simp [hz]
      rcases hlist (T p).imports _ s' h x hx with hmem | hreach
      · rcases List.mem_cons.1 hmem with rfl | hxs
        · exact Or.inr hself
        · exact Or.inl hxs
      · exact Or.inr (reach_compose hself hreach)

/-- Closure of the created set: on success, every created package that
was not already created on entry has all of its imports created by the
end of the walk. -/
theorem stubCreate_closed (T : TypesGraph) :
    ∀ (fuel : Nat) (s : SsaProgram × List PkgId) (p : PkgId) (s' : SsaProgram × List PkgId),
      stubCreate T fuel s p = some s' →
      ∀ r ∈ s'.2, r ∈ s.2 ∨ ∀ q ∈ (T r).imports, q ∈ s'.2 := by
  intro fuel
  induction fuel with
  | zero =>
    intro s p s' h r hr
    by_cases hm : p ∈ s.2
    · rw [stubCreate_mem hm] at h
      cases h
      exact Or.inl hr
    · rw [stubCreate_zero hm] at h
      exact absurd h (by simp)
  | succ f ih =>
    intro s p s' h r hr
    by_cases hm : p ∈ s.2
    · rw [stubCreate_mem hm] at h
      cases h
      exact Or.inl hr
    · rw [stubCreate_succ hm] at h
      have hlist : ∀ (ps : List PkgId) (a b : SsaProgram × List PkgId),
          stubList (fun a q => stubCreate T f a q) a ps = some b →
          ∀ y ∈ b.2, y ∈ a.2 ∨ ∀ q ∈ (T y).imports, q ∈ b.2 := by
        intro ps
        induction ps with
        | nil =>
          intro a b hl y hy
          rw [stubList_nil] at hl
          cases hl
          exact Or.inl hy
        | cons q qs ihq =>
          intro a b hl y hy
          rw [stubList_cons] at hl
          cases hf1 : stubCreate T f a q with
          | none => rw [hf1] at hl; exact absurd hl (by simp)
          | some s1 =>
            rw [hf1] at hl
            rcases ihq s1 b hl y hy with hys1 | hclosed
            · rcases ih a q s1 hf1 y hys1 with hya | hcl1
              · exact Or.inl hya
              · exact Or.inr fun z hz =>
                  (stubList_post T f qs s1 b hl).2.2.2 z (hcl1 z hz)
            · exact Or.inr hclosed
      rcases hlist (T p).imports _ s' h r hr with hmem | hclosed
      · rcases List.mem_cons.1 hmem with rfl | hrs
        · exact Or.inr (stubList_all_mem T f (T r).imports _ s' h)
        · exact Or.inl hrs
      · exact Or.inr hclosed

/-- Structural invariant of the stub-walk state: the created identities
are exactly the wrapped identities of the Program's packages (in
reverse creation order), no identity is created twice, and every
created package is a declaration-only stub. -/
def StubState (s : SsaProgram × List PkgId) : Prop :=
  s.1.packages.map (fun pk => pk.tpkg) = s.2.reverse ∧ s.2.Nodup ∧
    ∀ pk ∈ s.1.packages, pk.syn = none ∧ pk.tinfo = none ∧ pk.importable = true ∧
      pk.lowered = false

/-- One stub creation preserves the structural invariant. -/
theorem stubState_cons {s : SsaProgram × List PkgId} {p : PkgId} (hs : StubState s)
    (hm : p ∉ s.2) : StubState ((s.1.createPackage p none none true).1, p :: s.2) := by
  obtain ⟨hmap, hnd, hstub⟩ := hs
  refine ⟨?_, ?_, ?_⟩
  · simp only [SsaProgram.createPackage, List.map_append, hmap, List.reverse_cons]
    rfl
  · exact List.Nodup.cons hm hnd
  · intro pk hpk
    simp only [SsaProgram.createPackage, List.mem_append, List.mem_singleton] at hpk
    rcases hpk with hold | rfl
    · exact hstub pk hold
    · exact ⟨rfl, rfl, rfl, rfl⟩

/-- The stub walk preserves the structural invariant. -/
theorem stubCreate_state (T : TypesGraph) :
    ∀ (fuel : Nat) (s : SsaProgram × List PkgId) (p : PkgId) (s' : SsaProgram × List PkgId),
      StubState s → stubCreate T fuel s p = some s' → StubState s' := by
  intro fuel
  induction fuel with
  | zero =>
    intro s p s' hs h
    by_cases hm : p ∈ s.2
    · rw [stubCreate_mem hm] at h
      cases h
      exact hs
    · rw [stubCreate_zero hm] at h
      exact absurd h (by simp)
  | succ f ih =>
    intro s p s' hs h
    by_cases hm : p ∈ s.2
    · rw [stubCreate_mem hm] at h
      cases h
      exact hs
    · rw [stubCreate_succ hm] at h
      have hstep : StubState ((s.1.createPackage p none none true).1, p :: s.2) :=
        stubState_cons hs hm
      have hlist : ∀ (ps : List PkgId) (a b : SsaProgram × List PkgId),
          StubState a → stubList (fun a q => stubCreate T f a q) a ps = some b →
          StubState b := by
        intro ps
        induction ps with
        | nil =>
          intro a b ha hl
          rw [stubList_nil] at hl
          cases hl
          exact ha
        | cons q qs ihq =>
          intro a b ha hl
          rw [stubList_cons] at hl
          cases hf1 : stubCreate T f a q with
          | none => rw [hf1] at hl; exact absurd hl (by simp)
          | some s1 =>
            rw [hf1] at hl
            exact ihq s1 b (ih a q s1 ha hf1) hl
      exact hlist (T p).imports _ s' hstep h

/-- List version of soundness. -/
theorem stubList_sound (T : TypesGraph) (fuel : Nat) :
    ∀ (ps : List PkgId) (s s' : SsaProgram × List PkgId),
      stubList (fun a q => stubCreate T fuel a q) s ps = some s' →
      ∀ x ∈ s'.2, x ∈ s.2 ∨ Reach T ps x := by
  intro ps
  induction ps with
  | nil =>
    intro s s' hl x hx
    rw [stubList_nil] at hl
    cases hl
    exact Or.inl hx
  | cons q qs ihq =>
    intro s s' hl x hx
    rw [stubList_cons] at hl
    cases hf1 : stubCreate T fuel s q with
    | none => rw [hf1] at hl; exact absurd hl (by simp)
    | some s1 =>
      rw [hf1] at hl
      rcases ihq s1 s' hl x hx with hys1 | hreach
      · rcases stubCreate_sound T fuel s q s1 hf1 x hys1 with hya | hr1
        · exact Or.inl hya
        · refine Or.inr (reach_mono ?_ hr1)
          intro z hz
          simp only [List.mem_singleton] at hz
          simp [hz]
      · refine Or.inr (reach_mono ?_ hreach)
        intro z hz
        simp [hz]

/-- List version of closure. -/
theorem stubList_closed (T : TypesGraph) (fuel : Nat) :
    ∀ (ps : List PkgId) (s s' : SsaProgram × List PkgId),
      stubList (fun a q => stubCreate T fuel a q) s ps = some s' →
      ∀ r ∈ s'.2, r ∈ s.2 ∨ ∀ q ∈ (T r).imports, q ∈ s'.2 := by
  intro ps
  induction ps with
  | nil =>
    intro s s' hl r hr
    rw [stubList_nil] at hl
    cases hl
    exact Or.inl hr
  | cons q qs ihq =>
    intro s s' hl r hr
    rw [stubList_cons] at hl
    cases hf1 : stubCreate T fuel s q with
    | none => rw [hf1] at hl; exact absurd hl (by simp)
    | some s1 =>
      rw [hf1] at hl
      rcases ihq s1 s' hl r hr with hys1 | hclosed
      · rcases stubCreate_closed T fuel s q s1 hf1 r hys1 with hya | hcl1
        · exact Or.inl hya
        · exact Or.inr fun z hz => (stubList_post T fuel qs s1 s' hl).2.2.2 z (hcl1 z hz)
      · exact Or.inr hclosed

/-- List version of the structural invariant. -/
theorem stubList_state (T : TypesGraph) (fuel : Nat) :
    ∀ (ps : List PkgId) (s s' : SsaProgram × List PkgId),
      StubState s → stubList (fun a q => stubCreate T fuel a q) s ps = some s' →
      StubState s' := by
  intro ps
  induction ps with
  | nil =>
    intro s s' hs hl
    rw [stubList_nil] at hl
    cases hl
    exact hs
  | cons q qs ihq =>
    intro s s' hs hl
    rw [stubList_cons] at hl
    cases hf1 : stubCreate T fuel s q with
    | none => rw [hf1] at hl; exact absurd hl (by simp)
    | some s1 =>
      rw [hf1] at hl
      exact ihq s1 s' (stubCreate_state T fuel s q s1 hs hf1) hl

/-- `createAll` from an empty created set creates exactly the packages
transitively reachable from the root list, each once, all as stubs. -/
theorem createAll_spec (T : TypesGraph) (fuel : Nat) (prog : SsaProgram) (ps : List PkgId)
    (prog1 : SsaProgram) (created : List PkgId)
    (h : createAll T fuel prog ps = some (prog1, created)) :
    (∀ x, x ∈ created ↔ Reach T ps x) ∧ StubPost (prog, []) (prog1, created) ∧
      (StubState (prog, []) → StubState (prog1, created)) := by
  have hpost := stubList_post T fuel ps (prog, []) (prog1, created) h
  refine ⟨?_, hpost, fun hs => stubList_state T fuel ps _ _ hs h⟩
  intro x
  constructor
  · intro hx
    rcases stubList_sound T fuel ps _ _ h x hx with hnil | hreach
    · exact absurd hnil (by simp)
    · exact hreach
  · intro hreach
    induction hreach with
    | base hm => exact stubList_all_mem T fuel ps _ _ h _ hm
    | step hr hq ih =>
      rcases stubList_closed T fuel ps _ _ h _ ih with hnil | himp
      · exact absurd hnil (by simp)
      · exact himp _ hq

/-- Lowering the package just appended at the end of the list. -/
theorem lowerAt_concat (l : List SsaPackage) (x : SsaPackage) :
    lowerAt (l ++ [x]) l.length = l ++ [⟨x.tpkg, x.syn, x.tinfo, x.importable, true⟩] := by
  induction l with
  | nil => rfl
  | cons y ys ih => simpa [lowerAt] using ih

/-- Splits a successful `BuildPackage` run: the stub walk over the
imports succeeded, and the result is its Program extended with the
primary package, created with its syntax and fresh type information
and then body-lowered. -/
theorem BuildPackage_ok_dest {T : TypesGraph} {tinfoVal fs : Nat} {pkg : PkgId}
    {files mode fuel : Nat} {prog : SsaProgram} {idx inf : Nat}
    (h : BuildPackage T none tinfoVal (some fs) pkg files mode fuel =
      some (.ok prog idx inf)) :
    ∃ (prog1 : SsaProgram) (created : List PkgId),
      createAll T fuel (SsaProgram.new (some fs) mode) (T pkg).imports =
        some (prog1, created) ∧
      prog = ⟨prog1.fset, prog1.mode,
        prog1.packages ++ [⟨pkg, some files, some tinfoVal, false, true⟩]⟩ ∧
      idx = prog1.packages.length ∧ inf = tinfoVal := by
  unfold BuildPackage at h
  rw [if_neg (by simp)] at h
  by_cases hpath : (T pkg).path = ""
  · rw [if_pos hpath] at h
    simp at h
  · rw [if_neg hpath] at h
    dsimp only at h
    cases hca : createAll T fuel (SsaProgram.new (some fs) mode) (T pkg).imports with
    | none => rw [hca] at h; simp at h
    | some r =>
      obtain ⟨prog1, created⟩ := r
      rw [hca] at h
      simp only [SsaProgram.createPackage, Option.some.injEq, BuildOutcome.ok.injEq] at h
      obtain ⟨hprog, hidx, hinf⟩ := h
      refine ⟨prog1, created, rfl, ?_, hidx.symm, hinf.symm⟩
      rw [← hprog]
      rw [lowerAt_concat]

/-! ### The claims about `BuildPackage` -/

/-- The diamond of type-checked dependency packages: the target 0
imports 1 and 2, both of which import 3. -/
def Tdmd : TypesGraph := fun i =>
  if i = 0 then ⟨"a", [1, 2]⟩
  else if i = 1 then ⟨"b", [3]⟩
  else if i = 2 then ⟨"c", [3]⟩
  else ⟨"d", []⟩

/-- A package with no import path set. -/
def Tnopath : TypesGraph := fun _ => ⟨"", []⟩

/-- Nothing reaches the target 0 from its own imports in `Tdmd`. -/
theorem not_reach_Tdmd : ¬ Reach Tdmd [1, 2] 0 := by
  intro h
  have hsub : ∀ x, Reach Tdmd [1, 2] x → x ∈ ([1, 2, 3] : List PkgId) := by
    intro x hx
    induction hx with
    | base hm =>
      simp only [List.mem_cons, List.not_mem_nil, or_false] at hm
      rcases hm with rfl | rfl
      · simp
      · simp
    | step hr hq ih =>
      simp only [List.mem_cons, List.not_mem_nil, or_false] at ih
      rcases ih with rfl | rfl | rfl
      · simp only [Tdmd, List.mem_cons] at hq
        norm_num at hq
        simp [hq]
      · simp only [Tdmd, List.mem_cons] at hq
        norm_num at hq
        simp [hq]
      · simp only [Tdmd] at hq
        norm_num at hq
  have h0 := hsub 0 h
  simp at h0

/-- C6: with the preconditions satisfied, a type-checker error makes
`BuildPackage` return exactly that error, whatever the fuel, files,
mode or info: no Program, no IR package and no partial state appear in
the outcome — the Program is only allocated on the checker's success
path. -/
theorem c6_checker_error_aborts_build :
    ∀ (T : TypesGraph) (e : String) (tinfoVal fs : Nat) (pkg : PkgId)
      (files mode fuel : Nat), (T pkg).path ≠ "" →
      BuildPackage T (some e) tinfoVal (some fs) pkg files mode fuel =
        some (.failed e) := by
  intro T e tinfoVal fs pkg files mode fuel hpath
  unfold BuildPackage
  rw [if_neg (by simp), if_neg hpath]

theorem c6_checker_error_aborts_build_witness :
    BuildPackage Tdmd (some "boom") 77 (some 1) 0 99 0 4 = some (.failed "boom") :=
  c6_checker_error_aborts_build Tdmd "boom" 77 1 0 99 0 4 (by decide)

/-- C7: a nil position table, or an unset import-path identity, makes
`BuildPackage` panic — with an outcome independent of the checker's
result and of every other input, carrying nothing: the checker is
never consulted and nothing is allocated. -/
theorem c7_precondition_panics_before_checking :
    (∀ (T : TypesGraph) (checkErr : Option String) (tinfoVal : Nat) (pkg : PkgId)
      (files mode fuel : Nat),
      BuildPackage T checkErr tinfoVal none pkg files mode fuel =
        some (.panicked "no token.FileSet")) ∧
    (∀ (T : TypesGraph) (checkErr : Option String) (tinfoVal fs : Nat) (pkg : PkgId)
      (files mode fuel : Nat), (T pkg).path = "" →
      BuildPackage T checkErr tinfoVal (some fs) pkg files mode fuel =
        some (.panicked "package has no import path")) := by
  constructor
  · intro T checkErr tinfoVal pkg files mode fuel
    unfold BuildPackage
    rw [if_pos rfl]
  · intro T checkErr tinfoVal fs pkg files mode fuel hpath
    unfold BuildPackage
    rw [if_neg (by simp), if_pos hpath]

theorem c7_precondition_panics_before_checking_witness :
    BuildPackage Tnopath (some "checker would fail") 0 (some 1) 0 0 0 0 =
      some (.panicked "package has no import path") :=
  c7_precondition_panics_before_checking.2 Tnopath (some "checker would fail") 0 1 0 0 0 0 rfl

/-- C8: on a successful single-package build whose target is not among
its own transitive imports, the Program consists of the primary package
— created with its syntax and the fresh type information, and the only
one with lowered bodies — preceded by exactly the packages transitively
imported by the target, each created exactly once as a declaration-only
stub (no syntax, no type information, not lowered). -/
theorem c8_stub_deps_full_primary :
    ∀ (T : TypesGraph) (tinfoVal fs : Nat) (pkg : PkgId) (files mode fuel : Nat)
      (prog : SsaProgram) (idx inf : Nat),
      BuildPackage T none tinfoVal (some fs) pkg files mode fuel =
        some (.ok prog idx inf) →
      ¬ Reach T (T pkg).imports pkg →
      prog.packages.length = idx + 1 ∧
      (∃ h : idx < prog.packages.length,
        prog.packages[idx] = ⟨pkg, some files, some tinfoVal, false, true⟩) ∧
      (∀ j (h : j < prog.packages.length), j ≠ idx →
        prog.packages[j].syn = none ∧ prog.packages[j].tinfo = none ∧
          prog.packages[j].importable = true ∧ prog.packages[j].lowered = false) ∧
      (∀ q, (∃ j, ∃ h : j < prog.packages.length, j ≠ idx ∧ prog.packages[j].tpkg = q) ↔
        Reach T (T pkg).imports q) ∧
      (prog.packages.map (fun pk => pk.tpkg)).Nodup := by
  intro T tinfoVal fs pkg files mode fuel prog idx inf h hnr
  obtain ⟨prog1, created, hca, hprog, hidx, hinf⟩ := BuildPackage_ok_dest h
  obtain ⟨hiff, hpost, hstate⟩ := createAll_spec T fuel _ _ _ _ hca
  have hss : StubState (prog1, created) := by
    refine hstate ⟨rfl, List.nodup_nil, ?_⟩
    intro pk hpk
    exact absurd hpk (by simp [SsaProgram.new])
  have hmap : prog1.packages.map (fun pk => pk.tpkg) = created.reverse := hss.1
  have hnd : created.Nodup := hss.2.1
  have hstub : ∀ pk ∈ prog1.packages, pk.syn = none ∧ pk.tinfo = none ∧
      pk.importable = true ∧ pk.lowered = false := hss.2.2
  have hpkg_not_created : pkg ∉ created := fun hmem => hnr ((hiff pkg).1 hmem)
  subst hprog hidx
  refine ⟨by simp, ?_, ?_, ?_, ?_⟩
  · exact ⟨by simp, List.getElem_concat_length _ _ _ rfl _⟩
  · intro j hj hne
    dsimp only at hj
    have hjlt : j < prog1.packages.length := by
      simp only [List.length_append, List.length_cons, List.length_nil] at hj
      omega
    have hget : (prog1.packages ++
        [(⟨pkg, some files, some tinfoVal, false, true⟩ : SsaPackage)])[j] =
        prog1.packages[j] := List.getElem_append_left hjlt
    show ((prog1.packages ++ [(⟨pkg, some files, some tinfoVal, false, true⟩ :
      SsaPackage)])[j]).syn = none ∧ _
    rw [hget]
    exact hstub _ (List.getElem_mem hjlt)
  · intro q
    constructor
    · rintro ⟨j, hjlen, hne, htp⟩
      dsimp only at hjlen
      have hjlt : j < prog1.packages.length := by
        simp only [List.length_append, List.length_cons, List.length_nil] at hjlen
        omega
      have hget : (prog1.packages ++
          [(⟨pkg, some files, some tinfoVal, false, true⟩ : SsaPackage)])[j] =
          prog1.packages[j] := List.getElem_append_left hjlt
      rw [hget] at htp
      have hqmem : q ∈ prog1.packages.map (fun pk => pk.tpkg) := by
        rw [List.mem_map]
        exact ⟨prog1.packages[j], List.getElem_mem hjlt, htp⟩
      rw [hmap, List.mem_reverse] at hqmem
      exact (hiff q).1 hqmem
    · intro hreach
      have hqmem : q ∈ prog1.packages.map (fun pk => pk.tpkg) := by
        rw [hmap, List.mem_reverse]
        exact (hiff q).2 hreach
      rw [List.mem_map] at hqmem
      obtain ⟨pk, hpk, htp⟩ := hqmem
      rw [List.mem_iff_getElem] at hpk
      obtain ⟨j, hjlt, hj⟩ := hpk
      have hjlen2 : j < (prog1.packages ++
          [(⟨pkg, some files, some tinfoVal, false, true⟩ : SsaPackage)]).length := by
        simp only [List.length_append, List.length_cons, List.length_nil]
        omega
      refine ⟨j, hjlen2, by omega, ?_⟩
      have hget : (prog1.packages ++
          [(⟨pkg, some files, some tinfoVal, false, true⟩ : SsaPackage)])[j] =
          prog1.packages[j] := List.getElem_append_left hjlt
      rw [hget, hj]
      exact htp
  · have hmap2 : (prog1.packages ++
        [(⟨pkg, some files, some tinfoVal, false, true⟩ : SsaPackage)]).map
          (fun pk => pk.tpkg) = created.reverse ++ [pkg] := by
      rw [List.map_append, hmap]
      rfl
    show ((prog1.packages ++ [(⟨pkg, some files, some tinfoVal, false, true⟩ :
      SsaPackage)]).map (fun pk => pk.tpkg)).Nodup
    rw [hmap2, List.nodup_append]
    refine ⟨List.nodup_reverse.2 hnd, List.nodup_singleton pkg, ?_⟩
    intro x hx hx1
    simp only [List.mem_singleton] at hx1
    rw [List.mem_reverse] at hx
    rw [hx1] at hx
    exact hpkg_not_created hx

theorem c8_stub_deps_full_primary_witness :
    (⟨some 1, 0, [⟨1, none, none, true, false⟩, ⟨3, none, none, true, false⟩,
      ⟨2, none, none, true, false⟩, ⟨0, some 99, some 77, false, true⟩]⟩ :
        SsaProgram).packages.length = 3 + 1 :=
  (c8_stub_deps_full_primary Tdmd 77 1 0 99 0 4 _ 3 77 (by decide) not_reach_Tdmd).1
